import Mathlib

/-!
Shallow embedding of the flatten/unflatten core of `json-tools`
(`src/json_flatten.rs`).

Modelling conventions:
* Rust `String` / `&str` values are modelled as `List Char` (`Str`).
* `serde_json::Value` is modelled by the inductive `Value`; JSON numbers
  are modelled as `Int` (the claims only involve integer literals, and no
  claim depends on the numeric representation).
* `serde_json`'s object map and `indexmap::IndexMap` are modelled as
  association lists in insertion order with unique keys;
  `IndexMap::insert` replaces the value in place when the key is present
  and appends otherwise (`indexInsert`).
* `std::collections::HashMap` (the `Branch` map of `UnflattenTree`) is
  modelled as an association list in insertion order.  `HashMap`'s
  enumeration order is unspecified in Rust; the model fixes insertion
  order as the enumeration order used when serializing a `Branch`.
* Fallible Rust functions returning `anyhow::Result` are modelled with
  `Except Str`.
-/

abbrev Str := List Char

/-- `serde_json::Value`. -/
inductive Value where
  | null : Value
  | bool (b : Bool) : Value
  | num (n : Int) : Value
  | str (s : Str) : Value
  | arr (items : List Value) : Value
  | obj (entries : List (Str × Value)) : Value
deriving Repr

/-- `Value::is_object`. -/
def Value.isObject : Value → Bool
  | .obj _ => true
  | _ => false

/-- `Value::is_array`. -/
def Value.isArray : Value → Bool
  | .arr _ => true
  | _ => false

/-- Key membership test on an association list (`IndexMap::contains_key`
/ `HashMap::contains_key`). -/
def containsKey (m : List (Str × α)) (k : Str) : Bool :=
  m.any (fun p => p.1 == k)

/-- Replace (in place) the value at the first occurrence of key `k`
(the key is unique by construction everywhere this is used). -/
def replaceVal : List (Str × α) → Str → α → List (Str × α)
  | [], _, _ => []
  | (k', v') :: rest, k, v =>
    if k' = k then (k', v) :: rest else (k', v') :: replaceVal rest k v

/-- `IndexMap::insert`: update in place when the key is present
(keeping its position), append otherwise. -/
def indexInsert (m : List (Str × Value)) (k : Str) (v : Value) : List (Str × Value) :=
  if containsKey m k then replaceVal m k v else m ++ [(k, v)]

/-- Key construction of `Flatten::recurse` (lines 78–83): clone the
current key; if it is empty write just the segment, otherwise write
separator-then-segment. -/
def joinKey (sep cur k : Str) : Str :=
  if cur = [] then k else cur ++ sep ++ k

/-- The `Display` rendering of a `usize` array index (decimal). -/
def natToStr (n : Nat) : Str := (Nat.repr n).data

mutual
/-- `Flatten::flatten` (lines 88–102): arrays recurse with enumerated
indices as segments, objects recurse with their keys as segments, any
other (scalar) value is inserted into the output `IndexMap` under the
accumulated key. -/
def flatten (sep : Str) (output : List (Str × Value)) (currentKey : Str) :
    Value → List (Str × Value)
  | .arr items => flattenArr sep output currentKey 0 items
  | .obj entries => flattenObj sep output currentKey entries
  | .null => indexInsert output currentKey .null
  | .bool b => indexInsert output currentKey (.bool b)
  | .num n => indexInsert output currentKey (.num n)
  | .str s => indexInsert output currentKey (.str s)

/-- `Flatten::recurse` specialised to `items.into_iter().enumerate()`
(array case), `i` being the next 0-based index. -/
def flattenArr (sep : Str) (output : List (Str × Value)) (currentKey : Str)
    (i : Nat) : List Value → List (Str × Value)
  | [] => output
  | v :: rest =>
    flattenArr sep (flatten sep output (joinKey sep currentKey (natToStr i)) v)
      currentKey (i + 1) rest

/-- `Flatten::recurse` specialised to object entries. -/
def flattenObj (sep : Str) (output : List (Str × Value)) (currentKey : Str) :
    List (Str × Value) → List (Str × Value)
  | [] => output
  | (k, v) :: rest =>
    flattenObj sep (flatten sep output (joinKey sep currentKey k) v) currentKey rest
end

/-- The `UnflattenTree` enum (lines 29–35). -/
inductive UnflattenTree where
  | Branch (map : List (Str × UnflattenTree)) : UnflattenTree
  | Empty : UnflattenTree
  | Leaf (v : Value) : UnflattenTree
deriving Repr

instance : Inhabited Value := ⟨.null⟩

instance : Inhabited UnflattenTree := ⟨.Empty⟩

/-- `UnflattenTree::has_children` (lines 38–40). -/
def UnflattenTree.hasChildren : UnflattenTree → Bool
  | .Branch _ => true
  | _ => false

/-- `HashMap` lookup on the association-list model. -/
def lookupTree : List (Str × UnflattenTree) → Str → Option UnflattenTree
  | [], _ => none
  | (k', t) :: rest, k => if k' = k then some t else lookupTree rest k

/-- Store a child under key `k`: replace the first occurrence in place
if present, append otherwise.  Together with `lookupTree` this models
the source's `map.entry(key).or_insert(Empty)` followed by
`map.get_mut(key)` in-place mutation. -/
def storeTree : List (Str × UnflattenTree) → Str → UnflattenTree →
    List (Str × UnflattenTree)
  | [], k, t => [(k, t)]
  | (k', t') :: rest, k, t =>
    if k' = k then (k', t) :: rest else (k', t') :: storeTree rest k t

/-- `UnflattenTree::insert` (lines 42–64), with the key iterator already
materialised as the list of segments.  On `Empty`/`Leaf` with a segment
left, the node is replaced by a fresh one-entry `Branch`; on `Branch`
the child under the segment (default `Empty`) is updated in place; with
no segments left a non-`Branch` node becomes `Leaf value` and a `Branch`
is left unchanged. -/
def UnflattenTree.insert (t : UnflattenTree) (segs : List Str) (value : Value) :
    UnflattenTree :=
  match segs with
  | key :: keys =>
    match t with
    | .Empty => .Branch [(key, UnflattenTree.insert .Empty keys value)]
    | .Leaf _ => .Branch [(key, UnflattenTree.insert .Empty keys value)]
    | .Branch map =>
      .Branch (storeTree map key
        (UnflattenTree.insert ((lookupTree map key).getD .Empty) keys value))
  | [] => if t.hasChildren then t else .Leaf value

mutual
/-- Serde serialization of `UnflattenTree` with `#[serde(untagged)]`
(lines 29–35): `Branch` serializes as the JSON object of its entries,
`Empty` (a unit variant) serializes as JSON `null`, `Leaf(v)` serializes
as `v`. -/
def serializeTree : UnflattenTree → Value
  | .Branch m => .obj (serializeEntries m)
  | .Empty => .null
  | .Leaf v => v

/-- Serialization of a `Branch`'s entry map, in enumeration order. -/
def serializeEntries : List (Str × UnflattenTree) → List (Str × Value)
  | [] => []
  | (k, t) :: rest => (k, serializeTree t) :: serializeEntries rest
end

/-- First match of `sep` in `s` (leftmost): returns the text before the
match and the text after it.  Mirrors the scan of Rust's
`str::split` for a nonempty pattern. -/
def splitFirst (sep : Str) (s : Str) : Option (Str × Str) :=
  if sep.isPrefixOf s then some ([], s.drop sep.length)
  else
    match s with
    | [] => none
    | ch :: rest => (splitFirst sep rest).map (fun p => (ch :: p.1, p.2))

/-- Fuelled splitting loop; the fuel bounds the number of splits and is
never exhausted for a nonempty separator. -/
def splitOnFuel (sep : Str) : Nat → Str → List Str
  | 0, s => [s]
  | fuel + 1, s =>
    match splitFirst sep s with
    | none => [s]
    | some (b, a) => b :: splitOnFuel sep fuel a

/-- Rust's `key.split(&*sep)` for a nonempty separator, as used at line
112.  (The empty-separator behavior of Rust's `split` is not modelled;
every use in the program and the claims has `sep = "."`.) -/
def splitOn (sep s : Str) : List Str := splitOnFuel sep (s.length + 1) s

/-- `Flatten::unflatten` (lines 104–116): reject a non-object input with
the source's error message, otherwise fold `UnflattenTree::insert` over
the entries in order, splitting each key on the separator. -/
def unflatten (sep : Str) (input : Value) : Except Str UnflattenTree :=
  match input with
  | .obj entries =>
    .ok (entries.foldl (fun t p => t.insert (splitOn sep p.1) p.2) .Empty)
  | _ => .error "top-level object must be to be object type".data

/-- The flatten direction of `RunStreamJson::process_one` (lines
119–134): objects and arrays are flattened from an empty `IndexMap` and
an empty current key; any other value is re-emitted unchanged. -/
def processFlatten (sep : Str) (v : Value) : Value :=
  if v.isObject || v.isArray then .obj (flatten sep [] [] v) else v

/-- The unflatten direction of `RunStreamJson::process_one` (lines
138–148): unflatten, then serialize the resulting tree. -/
def processUnflatten (sep : Str) (v : Value) : Except Str Value :=
  (unflatten sep v).map serializeTree

/-- The default separator `"."`. -/
def dotSep : Str := ['.']

/-- The error message of the `bail!` at line 107 of `json_flatten.rs`. -/
def errMsg : Str := "top-level object must be to be object type".data

/-! ## Proof-side helper definitions

These are generic mathematical devices used to state lemmas about the
embedded program; they do not model any source function. -/

/-- Segments joined with a separator (plain intercalation, no
empty-prefix special case). -/
def joinSegs (sep : Str) : List Str → Str
  | [] => []
  | [s] => s
  | s :: rest => s ++ sep ++ joinSegs sep rest

/-- The key the flattener accumulates along a path: fold `joinKey` over
the path's segments starting from `key`. -/
def joinPath (sep key : Str) (p : List Str) : Str := p.foldl (joinKey sep) key

mutual
/-- The leaf positions of a value: each leaf's segment path (array
indices rendered in decimal) paired with its scalar, in depth-first
order. -/
def leafPaths : Value → List (List Str × Value)
  | .arr items => leafPathsArr 0 items
  | .obj entries => leafPathsObj entries
  | .null => [([], .null)]
  | .bool b => [([], .bool b)]
  | .num n => [([], .num n)]
  | .str s => [([], .str s)]

/-- Leaf positions of an array's tail starting at index `i`. -/
def leafPathsArr (i : Nat) : List Value → List (List Str × Value)
  | [] => []
  | v :: rest =>
    (leafPaths v).map (fun q => (natToStr i :: q.1, q.2)) ++ leafPathsArr (i + 1) rest

/-- Leaf positions of an object's entries. -/
def leafPathsObj : List (Str × Value) → List (List Str × Value)
  | [] => []
  | (k, w) :: rest =>
    (leafPaths w).map (fun q => (k :: q.1, q.2)) ++ leafPathsObj rest
end

mutual
/-- The tree the unflattener rebuilds from a flattened good value:
objects become `Branch`es, everything else a `Leaf`. -/
def treeOfV : Value → UnflattenTree
  | .obj entries => .Branch (treeOfEntries entries)
  | .null => .Leaf .null
  | .bool b => .Leaf (.bool b)
  | .num n => .Leaf (.num n)
  | .str s => .Leaf (.str s)
  | .arr items => .Leaf (.arr items)

/-- Children of the rebuilt `Branch` of an object. -/
def treeOfEntries : List (Str × Value) → List (Str × UnflattenTree)
  | [] => []
  | (k, w) :: rest => (k, treeOfV w) :: treeOfEntries rest
end

mutual
/-- Round-trip-safe values for a one-character separator `c`: no
arrays, every object nonempty with pairwise-distinct, nonempty,
`c`-free keys. -/
def goodb (c : Char) : Value → Bool
  | .null => true
  | .bool _ => true
  | .num _ => true
  | .str _ => true
  | .arr _ => false
  | .obj entries => !entries.isEmpty && goodEntries c entries

/-- Entry-list side of `goodb`. -/
def goodEntries (c : Char) : List (Str × Value) → Bool
  | [] => true
  | (k, w) :: rest =>
    !k.isEmpty && !k.contains c && !containsKey rest k && goodb c w &&
      goodEntries c rest
end

/-- Fold `UnflattenTree.insert` over pre-split (path, value) pairs. -/
def foldInsert (ps : List (List Str × Value)) (t : UnflattenTree) : UnflattenTree :=
  ps.foldl (fun t q => t.insert q.1 q.2) t

/-- Fold `indexInsert` over (key, value) pairs. -/
def foldIndexInsert (out : List (Str × Value)) (ps : List (Str × Value)) :
    List (Str × Value) :=
  ps.foldl (fun o q => indexInsert o q.1 q.2) out

/-- The pairs the flattener emits below `key` for a value, by leaf
path. -/
def joinedPairs (sep key : Str) (v : Value) : List (Str × Value) :=
  (leafPaths v).map (fun q => (joinPath sep key q.1, q.2))

/-! ## Claim theorems: direct consequences of the definitions -/

/-- C3: during unflatten insertion, a (key, value) pair whose segment
walk reaches a `Branch` node with no segments remaining leaves the
`Branch` unchanged and silently drops the scalar value. -/
theorem claim_C3_branch_drops_scalar (m : List (Str × UnflattenTree)) (value : Value) :
    (UnflattenTree.Branch m).insert [] value = .Branch m := rfl

/-- C8: every insertion step preserves the tree-node invariant: a
`Branch` stays a `Branch` for any remaining segments, a `Leaf` hit with
no segments left is overwritten in place by a new `Leaf`, and a `Leaf`
hit with segments remaining is discarded and replaced by a `Branch`. -/
theorem claim_C8_tree_node_invariant :
    (∀ (segs : List Str) (v : Value) (m : List (Str × UnflattenTree)),
      ((UnflattenTree.Branch m).insert segs v).hasChildren = true)
  ∧ (∀ v w : Value, (UnflattenTree.Leaf w).insert [] v = .Leaf v)
  ∧ (∀ (k : Str) (ks : List Str) (v w : Value),
      ((UnflattenTree.Leaf w).insert (k :: ks) v).hasChildren = true) := by
  refine ⟨?_, fun v w => rfl, fun k ks v w => rfl⟩
  intro segs v m
  cases segs <;> rfl

/-- C9: unflattening the empty object succeeds, the root tree node
stays `Empty`, and the untagged serialization renders it as JSON
`null`. -/
theorem claim_C9_empty_object_unflattens_to_null (sep : Str) :
    unflatten sep (.obj []) = .ok .Empty ∧
    processUnflatten sep (.obj []) = .ok .null := ⟨rfl, rfl⟩

/-- C2 (counterexample): with separator ".", unflattening the object
with entries ("a.b", [1]) then ("a", 2) does NOT return {"a": 2}. -/
theorem claim_C2_counterexample :
    processUnflatten dotSep (.obj [("a.b".data, .arr [.num 1]), ("a".data, .num 2)])
      ≠ .ok (.obj [("a".data, .num 2)]) := by
  rw [show processUnflatten dotSep (.obj [("a.b".data, .arr [.num 1]), ("a".data, .num 2)])
      = .ok (.obj [("a".data, .obj [("b".data, .arr [.num 1])])]) from rfl]
  simp

/-- C2 (amended): with separator ".", unflattening ("a.b", [1]) then
("a", 2) in that order returns {"a": {"b": [1]}}: the later, shorter
key's scalar is silently dropped and the branch built by the earlier,
longer key survives (this is what the source's `clobber` test asserts). -/
theorem claim_C2_amended :
    processUnflatten dotSep (.obj [("a.b".data, .arr [.num 1]), ("a".data, .num 2)])
      = .ok (.obj [("a".data, .obj [("b".data, .arr [.num 1])])]) := rfl

/-- C4: unflatten fails with the structural error exactly when its
input is not a JSON object; in particular `unflatten(null)` and
`unflatten([1,2])` both fail with that error. -/
theorem claim_C4_unflatten_rejects_non_objects :
    (∀ (sep : Str) (v : Value), (∃ e, unflatten sep v = .error e) ↔ v.isObject = false)
  ∧ (∀ sep : Str, unflatten sep .null = .error errMsg)
  ∧ (∀ sep : Str, unflatten sep (.arr [.num 1, .num 2]) = .error errMsg) := by
  refine ⟨?_, fun sep => rfl, fun sep => rfl⟩
  intro sep v
  cases v <;> simp [unflatten, Value.isObject]

/-- C6: the flatten direction re-emits a top-level scalar (anything
that is neither an object nor an array) unchanged. -/
theorem claim_C6_top_level_scalar_bypass (sep : Str) (v : Value)
    (h1 : v.isObject = false) (h2 : v.isArray = false) :
    processFlatten sep v = v := by
  simp [processFlatten, h1, h2]

/-- C6 witness: `flatten(5)` produces `5` unchanged. -/
theorem claim_C6_witness :
    (Value.num 5).isObject = false ∧ (Value.num 5).isArray = false ∧
      processFlatten dotSep (.num 5) = .num 5 :=
  ⟨rfl, rfl, claim_C6_top_level_scalar_bypass dotSep (.num 5) rfl rfl⟩

/-- C1 (counterexample): the round trip fails at the top-level scalar
`5` (which vacuously satisfies the claim's key-collision hypothesis):
flatten re-emits `5`, and unflatten then rejects it with the structural
error instead of returning `5`. -/
theorem claim_C1_counterexample :
    processUnflatten dotSep (processFlatten dotSep (.num 5)) ≠ .ok (.num 5) := by
  rw [show processUnflatten dotSep (processFlatten dotSep (.num 5))
      = .error errMsg from rfl]
  simp

/-- C5 (counterexample): not every flattened key is the leaf path's
segments joined with the separator: for input {"": {"a": 1}} the walk
emits the key "a", while the (unique) leaf path ["", "a"] joins to
".a" — the separator after an empty accumulated key is dropped. -/
theorem claim_C5_counterexample :
    ¬ (∀ κ ∈ (flatten dotSep [] []
          (.obj [("".data, .obj [("a".data, .num 1)])])).map Prod.fst,
        ∃ q ∈ leafPaths (.obj [("".data, .obj [("a".data, .num 1)])]),
          κ = joinSegs dotSep q.1) := by
  intro h
  obtain ⟨q, hq, he⟩ := h "a".data (by
    rw [show (flatten dotSep [] []
        (.obj [("".data, .obj [("a".data, .num 1)])])).map Prod.fst
        = ["a".data] from rfl]
    exact List.mem_singleton.mpr rfl)
  rw [show leafPaths (.obj [("".data, .obj [("a".data, .num 1)])])
      = [([[], "a".data], Value.num 1)] from rfl] at hq
  rw [List.mem_singleton] at hq
  subst hq
  exact absurd he (by decide)

/-! ## Splitting and joining of path keys (single-character separator) -/

theorem splitFirst_none_of_not_mem {c : Char} : ∀ {s : Str}, c ∉ s →
    splitFirst [c] s = none := by
  intro s
  induction s with
  | nil => intro _; rfl
  | cons ch rest ih =>
    intro h
    have hne : (c == ch) = false := by
      simp only [beq_eq_false_iff_ne]
      exact fun e => h (e ▸ List.mem_cons_self _ _)
    have hrest : c ∉ rest := fun hm => h (List.mem_cons_of_mem _ hm)
    simp [splitFirst, List.isPrefixOf, hne, ih hrest]

theorem splitFirst_append {c : Char} : ∀ {b : Str}, c ∉ b → ∀ a : Str,
    splitFirst [c] (b ++ c :: a) = some (b, a) := by
  intro b
  induction b with
  | nil =>
    intro _ a
    simp [splitFirst, List.isPrefixOf]
  | cons ch rest ih =>
    intro h a
    have hne : (c == ch) = false := by
      simp only [beq_eq_false_iff_ne]
      exact fun e => h (e ▸ List.mem_cons_self _ _)
    have hrest : c ∉ rest := fun hm => h (List.mem_cons_of_mem _ hm)
    simp [splitFirst, List.isPrefixOf, hne, ih hrest a]


theorem splitFirst_some_shape {c : Char} : ∀ {s b a : Str},
    splitFirst [c] s = some (b, a) → s = b ++ c :: a := by
  intro s
  induction s with
  | nil => intro b a h; simp [splitFirst, List.isPrefixOf] at h
  | cons ch rest ih =>
    intro b a h
    by_cases hc : c = ch
    · subst hc
      have hpre : [c].isPrefixOf (c :: rest) = true := by
        simp [List.isPrefixOf]
      rw [splitFirst, if_pos hpre] at h
      simp only [List.drop_succ_cons, List.drop_zero, Option.some.injEq,
        Prod.mk.injEq] at h
      obtain ⟨hb, ha⟩ := h
      subst hb; subst ha
      rfl
    · have hpre : [c].isPrefixOf (ch :: rest) = false := by
        simp [List.isPrefixOf]
        exact hc
      rw [splitFirst, if_neg (by simp [hpre])] at h
      cases hsf : splitFirst [c] rest with
      | none => rw [hsf] at h; simp at h
      | some p =>
        obtain ⟨pb, pa⟩ := p
        rw [hsf] at h
        simp only [Option.map_some', Option.some.injEq, Prod.mk.injEq] at h
        obtain ⟨hb, ha⟩ := h
        subst ha
        rw [← hb, ih hsf]
        rfl

theorem splitOnFuel_of_lt {c : Char} : ∀ (f₁ : Nat) (s : Str) (f₂ : Nat),
    s.length < f₁ → s.length < f₂ →
    splitOnFuel [c] f₁ s = splitOnFuel [c] f₂ s := by
  intro f₁
  induction f₁ with
  | zero => intro s f₂ h1 _; exact absurd h1 (Nat.not_lt_zero _)
  | succ f ih =>
    intro s f₂ h1 h2
    cases f₂ with
    | zero => exact absurd h2 (Nat.not_lt_zero _)
    | succ f₂ =>
      simp only [splitOnFuel]
      cases hsf : splitFirst [c] s with
      | none => rfl
      | some p =>
        obtain ⟨b, a⟩ := p
        have hs : s = b ++ c :: a := splitFirst_some_shape hsf
        have hlen : a.length < s.length := by
          rw [hs, List.length_append, List.length_cons]; omega
        show b :: splitOnFuel [c] f a = b :: splitOnFuel [c] f₂ a
        rw [ih a f₂ (by omega) (by omega)]

theorem splitOn_of_not_mem {c : Char} {s : Str} (h : c ∉ s) :
    splitOn [c] s = [s] := by
  show splitOnFuel [c] (s.length + 1) s = [s]
  simp [splitOnFuel, splitFirst_none_of_not_mem h]

theorem splitOn_append {c : Char} {b : Str} (hb : c ∉ b) (a : Str) :
    splitOn [c] (b ++ c :: a) = b :: splitOn [c] a := by
  show splitOnFuel [c] ((b ++ c :: a).length + 1) (b ++ c :: a) = _
  simp only [splitOnFuel, splitFirst_append hb a]
  have h1 : a.length < (b ++ c :: a).length := by
    rw [List.length_append, List.length_cons]; omega
  rw [splitOnFuel_of_lt (c := c) _ a _ h1 (Nat.lt_succ_self _)]
  rfl

theorem splitOn_joinSegs {c : Char} : ∀ {ss : List Str}, ss ≠ [] →
    (∀ s ∈ ss, c ∉ s) → splitOn [c] (joinSegs [c] ss) = ss := by
  intro ss
  induction ss with
  | nil => intro h; exact absurd rfl h
  | cons s rest ih =>
    intro _ hall
    cases rest with
    | nil => exact splitOn_of_not_mem (hall s (List.mem_cons_self _ _))
    | cons s' rest' =>
      have hj : joinSegs [c] (s :: s' :: rest') = s ++ c :: joinSegs [c] (s' :: rest') := by
        simp [joinSegs]
      rw [hj, splitOn_append (hall s (List.mem_cons_self _ _)),
        ih (by simp) (fun x hx => hall x (List.mem_cons_of_mem _ hx))]

theorem joinSegs_inj {c : Char} {p p' : List Str} (hp : p ≠ []) (hp' : p' ≠ [])
    (hcp : ∀ s ∈ p, c ∉ s) (hcp' : ∀ s ∈ p', c ∉ s)
    (he : joinSegs [c] p = joinSegs [c] p') : p = p' := by
  rw [← splitOn_joinSegs hp hcp, he, splitOn_joinSegs hp' hcp']

theorem joinPath_of_ne_nil {sep : Str} : ∀ {p : List Str} {cur : Str}, cur ≠ [] →
    p ≠ [] → joinPath sep cur p = cur ++ sep ++ joinSegs sep p := by
  intro p
  induction p with
  | nil => intro cur _ h; exact absurd rfl h
  | cons t tail ih =>
    intro cur hcur _
    show joinPath sep (joinKey sep cur t) tail = _
    cases tail with
    | nil =>
      show joinKey sep cur t = _
      rw [joinKey, if_neg hcur]
      rfl
    | cons t' rest =>
      have hne : joinKey sep cur t ≠ [] := by
        rw [joinKey, if_neg hcur]
        intro hh
        exact hcur (List.append_eq_nil.mp (List.append_eq_nil.mp hh).1).1
      rw [ih hne (by simp), joinKey, if_neg hcur]
      simp [joinSegs, List.append_assoc]

theorem joinPath_empty_start {sep : Str} {s : Str} (hs : s ≠ []) (tail : List Str) :
    joinPath sep [] (s :: tail) = joinSegs sep (s :: tail) := by
  show joinPath sep (joinKey sep [] s) tail = _
  rw [joinKey, if_pos rfl]
  cases tail with
  | nil => rfl
  | cons t rest => rw [joinPath_of_ne_nil hs (by simp)]; simp [joinSegs]

/-! ## Association-list lemmas -/

theorem containsKey_iff {α : Type} {m : List (Str × α)} {k : Str} :
    containsKey m k = true ↔ k ∈ m.map Prod.fst := by
  rw [containsKey, List.any_eq_true]
  constructor
  · rintro ⟨p, hp, he⟩
    exact List.mem_map.mpr ⟨p, hp, by simpa using he⟩
  · intro h
    obtain ⟨p, hp, he⟩ := List.mem_map.mp h
    exact ⟨p, hp, by simpa using he⟩

theorem containsKey_eq_false {α : Type} {m : List (Str × α)} {k : Str} :
    containsKey m k = false ↔ k ∉ m.map Prod.fst := by
  rw [← containsKey_iff (m := m) (k := k), ← Bool.not_eq_true]

theorem containsKey_append {α : Type} {m m' : List (Str × α)} {k : Str} :
    containsKey (m ++ m') k = (containsKey m k || containsKey m' k) := by
  simp [containsKey, List.any_append]

theorem lookupTree_storeTree_self : ∀ (m : List (Str × UnflattenTree)) (k : Str)
    (t : UnflattenTree), lookupTree (storeTree m k t) k = some t := by
  intro m k t
  induction m with
  | nil => simp [storeTree, lookupTree]
  | cons p rest ih =>
    obtain ⟨k', t'⟩ := p
    by_cases h : k' = k
    · simp [storeTree, lookupTree, h]
    · simp [storeTree, lookupTree, h, ih]

theorem storeTree_storeTree : ∀ (m : List (Str × UnflattenTree)) (k : Str)
    (t t' : UnflattenTree), storeTree (storeTree m k t) k t' = storeTree m k t' := by
  intro m k t t'
  induction m with
  | nil => simp [storeTree]
  | cons p rest ih =>
    obtain ⟨k'', t''⟩ := p
    by_cases h : k'' = k
    · simp [storeTree, h]
    · simp [storeTree, h, ih]

theorem storeTree_of_lookup_none : ∀ {m : List (Str × UnflattenTree)} {k : Str}
    (t : UnflattenTree), lookupTree m k = none → storeTree m k t = m ++ [(k, t)] := by
  intro m
  induction m with
  | nil => intro k t _; rfl
  | cons p rest ih =>
    intro k t h
    obtain ⟨k', t'⟩ := p
    by_cases he : k' = k
    · rw [lookupTree, if_pos he] at h; exact absurd h (by simp)
    · rw [lookupTree, if_neg he] at h
      rw [storeTree, if_neg he, ih t h]
      rfl

theorem lookupTree_append_of_none {m m' : List (Str × UnflattenTree)} {k : Str}
    (h : lookupTree m k = none) : lookupTree (m ++ m') k = lookupTree m' k := by
  induction m with
  | nil => rfl
  | cons p rest ih =>
    obtain ⟨k', t'⟩ := p
    by_cases he : k' = k
    · rw [lookupTree, if_pos he] at h; exact absurd h (by simp)
    · rw [lookupTree, if_neg he] at h
      show lookupTree ((k', t') :: (rest ++ m')) k = _
      rw [lookupTree, if_neg he]
      exact ih h

theorem lookupTree_singleton_of_ne {k k' : Str} {t : UnflattenTree} (h : k ≠ k') :
    lookupTree [(k, t)] k' = none := by
  rw [lookupTree, if_neg h]
  rfl

theorem keys_replaceVal : ∀ (m : List (Str × Value)) (k : Str) (v : Value),
    (replaceVal m k v).map Prod.fst = m.map Prod.fst := by
  intro m k v
  induction m with
  | nil => rfl
  | cons p rest ih =>
    obtain ⟨k', v'⟩ := p
    by_cases h : k' = k
    · simp [replaceVal, h]
    · simp [replaceVal, h, ih]

theorem mem_replaceVal : ∀ {m : List (Str × Value)} {k : Str} {v : Value}
    {p : Str × Value}, p ∈ replaceVal m k v → p ∈ m ∨ p.2 = v := by
  intro m
  induction m with
  | nil => intro k v p h; simp [replaceVal] at h
  | cons q rest ih =>
    intro k v p h
    obtain ⟨k', v'⟩ := q
    by_cases he : k' = k
    · rw [replaceVal, if_pos he] at h
      rcases List.mem_cons.mp h with h1 | h1
      · right; rw [h1]
      · left; exact List.mem_cons_of_mem _ h1
    · rw [replaceVal, if_neg he] at h
      rcases List.mem_cons.mp h with h1 | h1
      · left; rw [h1]; exact List.mem_cons_self _ _
      · rcases ih h1 with h2 | h2
        · left; exact List.mem_cons_of_mem _ h2
        · right; exact h2

theorem indexInsert_of_not_contains {m : List (Str × Value)} {k : Str}
    (v : Value) (h : containsKey m k = false) :
    indexInsert m k v = m ++ [(k, v)] := by
  rw [indexInsert, h]
  simp

theorem mem_keys_indexInsert {m : List (Str × Value)} {k κ : Str} {v : Value}
    (h : κ ∈ (indexInsert m k v).map Prod.fst) :
    κ ∈ m.map Prod.fst ∨ κ = k := by
  rw [indexInsert] at h
  by_cases hc : containsKey m k
  · rw [if_pos hc, keys_replaceVal] at h
    exact Or.inl h
  · rw [if_neg hc, List.map_append, List.map_cons, List.map_nil] at h
    rcases List.mem_append.mp h with h1 | h1
    · exact Or.inl h1
    · exact Or.inr (List.mem_singleton.mp h1)

theorem mem_indexInsert {m : List (Str × Value)} {k : Str} {v : Value}
    {p : Str × Value} (h : p ∈ indexInsert m k v) : p ∈ m ∨ p.2 = v := by
  rw [indexInsert] at h
  by_cases hc : containsKey m k
  · rw [if_pos hc] at h
    exact mem_replaceVal h
  · rw [if_neg hc] at h
    rcases List.mem_append.mp h with h1 | h1
    · exact Or.inl h1
    · right
      rw [List.mem_singleton.mp h1]

/-! ## The flattener as a fold over leaf paths -/

theorem foldIndexInsert_append (out : List (Str × Value))
    (l1 l2 : List (Str × Value)) :
    foldIndexInsert (foldIndexInsert out l1) l2 = foldIndexInsert out (l1 ++ l2) :=
  (List.foldl_append _ _ _ _).symm

theorem flatten_fold_main (sep : Str) : ∀ (output : List (Str × Value))
    (currentKey : Str) (v : Value),
    flatten sep output currentKey v = foldIndexInsert output (joinedPairs sep currentKey v) := by
  refine flatten.induct sep
    (fun output currentKey v =>
      flatten sep output currentKey v = foldIndexInsert output (joinedPairs sep currentKey v))
    (fun output currentKey es =>
      flattenObj sep output currentKey es =
        foldIndexInsert output ((leafPathsObj es).map (fun q => (joinPath sep currentKey q.1, q.2))))
    (fun output currentKey i items =>
      flattenArr sep output currentKey i items =
        foldIndexInsert output ((leafPathsArr i items).map (fun q => (joinPath sep currentKey q.1, q.2))))
    ?_ ?_ ?_ ?_ ?_ ?_ ?_ ?_ ?_ ?_
  · intro output key items h3
    exact h3
  · intro output key es h2
    exact h2
  · intro output key; rfl
  · intro output key b; rfl
  · intro output key n; rfl
  · intro output key s; rfl
  · intro output key i; rfl
  · intro output key i v rest h1 h2
    show flattenArr sep (flatten sep output (joinKey sep key (natToStr i)) v) key (i + 1) rest = _
    rw [h2, h1, foldIndexInsert_append]
    simp only [leafPathsArr, List.map_append, List.map_map]
    rfl
  · intro output key; rfl
  · intro output key k v rest h1 h2
    show flattenObj sep (flatten sep output (joinKey sep key k) v) key rest = _
    rw [h2, h1, foldIndexInsert_append]
    simp only [leafPathsObj, List.map_append, List.map_map]
    rfl

theorem foldIndexInsert_fresh : ∀ (ps out : List (Str × Value)),
    (ps.map Prod.fst).Nodup → (∀ κ ∈ ps.map Prod.fst, containsKey out κ = false) →
    foldIndexInsert out ps = out ++ ps := by
  intro ps
  induction ps with
  | nil => intro out _ _; simp [foldIndexInsert]
  | cons q rest ih =>
    intro out hnodup hfresh
    obtain ⟨κ, v⟩ := q
    show foldIndexInsert (indexInsert out κ v) rest = _
    rw [indexInsert_of_not_contains v (hfresh κ (by simp))]
    have hnd : (rest.map Prod.fst).Nodup := by
      simp only [List.map_cons] at hnodup
      exact hnodup.of_cons
    have hnotin : κ ∉ rest.map Prod.fst := by
      simp only [List.map_cons, List.nodup_cons] at hnodup
      exact hnodup.1
    rw [ih (out ++ [(κ, v)]) hnd ?_]
    · simp
    · intro κ' hκ'
      rw [containsKey_append]
      have h1 : containsKey out κ' = false :=
        hfresh κ' (by simp only [List.map_cons]; exact List.mem_cons_of_mem _ hκ')
      have h2 : containsKey [(κ, v)] κ' = false := by
        rw [containsKey_eq_false]
        simp
        exact fun he => hnotin (he ▸ hκ')
      rw [h1, h2]
      rfl

theorem mem_keys_foldIndexInsert : ∀ (ps out : List (Str × Value)) (κ : Str),
    κ ∈ (foldIndexInsert out ps).map Prod.fst →
    κ ∈ out.map Prod.fst ∨ κ ∈ ps.map Prod.fst := by
  intro ps
  induction ps with
  | nil => intro out κ h; exact Or.inl h
  | cons q rest ih =>
    intro out κ h
    obtain ⟨k, v⟩ := q
    rcases ih (indexInsert out k v) κ h with h1 | h1
    · rcases mem_keys_indexInsert h1 with h2 | h2
      · exact Or.inl h2
      · right; simp [h2]
    · right; exact List.mem_cons_of_mem _ (by exact h1)

theorem mem_foldIndexInsert : ∀ (ps out : List (Str × Value)) (p : Str × Value),
    p ∈ foldIndexInsert out ps → p ∈ out ∨ ∃ q ∈ ps, p.2 = q.2 := by
  intro ps
  induction ps with
  | nil => intro out p h; exact Or.inl h
  | cons q rest ih =>
    intro out p h
    obtain ⟨k, v⟩ := q
    rcases ih (indexInsert out k v) p h with h1 | h1
    · rcases mem_indexInsert h1 with h2 | h2
      · exact Or.inl h2
      · exact Or.inr ⟨(k, v), List.mem_cons_self _ _, h2⟩
    · obtain ⟨r, hr, he⟩ := h1
      exact Or.inr ⟨r, List.mem_cons_of_mem _ hr, he⟩

/-! ## Facts about leaf paths of round-trip-safe values -/

theorem contains_eq_false_iff {l : Str} {a : Char} :
    l.contains a = false ↔ a ∉ l := by
  constructor
  · intro h hm
    have he : l.elem a = true := List.elem_eq_true_of_mem hm
    rw [show l.elem a = l.contains a from rfl, h] at he
    exact Bool.false_ne_true he
  · intro h
    cases hc : l.contains a
    · rfl
    · exact absurd (List.mem_of_elem_eq_true hc) h

theorem goodb_obj {c : Char} {entries : List (Str × Value)}
    (h : goodb c (.obj entries) = true) :
    entries ≠ [] ∧ goodEntries c entries = true := by
  rw [goodb, Bool.and_eq_true] at h
  refine ⟨?_, h.2⟩
  intro he
  subst he
  exact absurd h.1 (by decide)

theorem goodEntries_cons {c : Char} {k : Str} {w : Value}
    {rest : List (Str × Value)} (h : goodEntries c ((k, w) :: rest) = true) :
    k ≠ [] ∧ c ∉ k ∧ containsKey rest k = false ∧ goodb c w = true ∧
      goodEntries c rest = true := by
  rw [goodEntries, Bool.and_eq_true, Bool.and_eq_true, Bool.and_eq_true,
    Bool.and_eq_true] at h
  obtain ⟨⟨⟨⟨h1, h2⟩, h3⟩, h4⟩, h5⟩ := h
  rw [Bool.not_eq_true'] at h1 h2 h3
  refine ⟨?_, contains_eq_false_iff.mp h2, h3, h4, h5⟩
  intro he
  subst he
  exact absurd h1 (by decide)

theorem leafPaths_facts {c : Char} : ∀ v : Value, goodb c v = true →
    leafPaths v ≠ [] ∧
    (∀ q ∈ leafPaths v, ∀ s ∈ q.1, s ≠ [] ∧ c ∉ s) ∧
    ((leafPaths v).map Prod.fst).Nodup ∧
    (v.isObject = true → ∀ q ∈ leafPaths v, q.1 ≠ []) := by
  refine leafPaths.induct
    (fun v => goodb c v = true →
      leafPaths v ≠ [] ∧
      (∀ q ∈ leafPaths v, ∀ s ∈ q.1, s ≠ [] ∧ c ∉ s) ∧
      ((leafPaths v).map Prod.fst).Nodup ∧
      (v.isObject = true → ∀ q ∈ leafPaths v, q.1 ≠ []))
    (fun es => goodEntries c es = true →
      (∀ q ∈ leafPathsObj es, ∃ k tail, q.1 = k :: tail ∧ k ∈ es.map Prod.fst ∧
        k ≠ [] ∧ c ∉ k ∧ (∀ s ∈ tail, s ≠ [] ∧ c ∉ s)) ∧
      ((leafPathsObj es).map Prod.fst).Nodup ∧
      (es ≠ [] → leafPathsObj es ≠ []))
    (fun _ _ => True)
    ?_ ?_ ?_ ?_ ?_ ?_ ?_ ?_ ?_ ?_
  · intro items _ h
    simp [goodb] at h
  · intro entries ih h
    obtain ⟨hne, hge⟩ := goodb_obj h
    obtain ⟨ha, hnd, hnn⟩ := ih hge
    refine ⟨hnn hne, ?_, hnd, ?_⟩
    · intro q hq s hs
      obtain ⟨k, tail, hqe, _, hk1, hk2, htail⟩ := ha q hq
      rw [hqe] at hs
      rcases List.mem_cons.mp hs with h1 | h1
      · exact h1 ▸ ⟨hk1, hk2⟩
      · exact htail s h1
    · intro _ q hq
      obtain ⟨k, tail, hqe, _⟩ := ha q hq
      rw [hqe]
      simp
  · intro _
    refine ⟨by simp [leafPaths], ?_, by simp [leafPaths], ?_⟩
    · intro q hq s hs
      rw [show leafPaths Value.null = [([], Value.null)] from rfl,
        List.mem_singleton] at hq
      subst hq
      simp at hs
    · intro hobj
      simp [Value.isObject] at hobj
  · intro b _
    refine ⟨by simp [leafPaths], ?_, by simp [leafPaths], ?_⟩
    · intro q hq s hs
      rw [show leafPaths (Value.bool b) = [([], Value.bool b)] from rfl,
        List.mem_singleton] at hq
      subst hq
      simp at hs
    · intro hobj
      simp [Value.isObject] at hobj
  · intro n _
    refine ⟨by simp [leafPaths], ?_, by simp [leafPaths], ?_⟩
    · intro q hq s hs
      rw [show leafPaths (Value.num n) = [([], Value.num n)] from rfl,
        List.mem_singleton] at hq
      subst hq
      simp at hs
    · intro hobj
      simp [Value.isObject] at hobj
  · intro s _
    refine ⟨by simp [leafPaths], ?_, by simp [leafPaths], ?_⟩
    · intro q hq x hx
      rw [show leafPaths (Value.str s) = [([], Value.str s)] from rfl,
        List.mem_singleton] at hq
      subst hq
      simp at hx
    · intro hobj
      simp [Value.isObject] at hobj
  · intro i
    trivial
  · intro i v rest _ _
    trivial
  · intro _
    refine ⟨?_, by simp [leafPathsObj], ?_⟩
    · intro q hq
      simp [leafPathsObj] at hq
    · intro h
      exact absurd rfl h
  · intro k w rest ih1 ih2 hge
    obtain ⟨hk1, hk2, hck, hgw, hgrest⟩ := goodEntries_cons hge
    obtain ⟨hwne, hwsegs, hwnd, _⟩ := ih1 hgw
    obtain ⟨ha, hnd, _⟩ := ih2 hgrest
    have hknotin : k ∉ rest.map Prod.fst := containsKey_eq_false.mp hck
    have hsplit : leafPathsObj ((k, w) :: rest)
        = (leafPaths w).map (fun q => (k :: q.1, q.2)) ++ leafPathsObj rest := rfl
    refine ⟨?_, ?_, ?_⟩
    · intro q hq
      rw [hsplit] at hq
      rcases List.mem_append.mp hq with h1 | h1
      · obtain ⟨r, hr, he⟩ := List.mem_map.mp h1
        refine ⟨k, r.1, ?_, by simp, hk1, hk2, fun s hs => hwsegs r hr s hs⟩
        rw [← he]
      · obtain ⟨k', tail, he, hmem, h3, h4, h5⟩ := ha q h1
        refine ⟨k', tail, he, ?_, h3, h4, h5⟩
        simp only [List.map_cons]
        exact List.mem_cons_of_mem _ hmem
    · rw [hsplit, List.map_append]
      refine List.Nodup.append ?_ hnd ?_
      · rw [List.map_map]
        have hfe : (Prod.fst ∘ fun (q : List Str × Value) => (k :: q.1, q.2))
            = (fun (p : List Str) => k :: p) ∘ Prod.fst := rfl
        rw [hfe, ← List.map_map]
        exact List.Nodup.map (fun a b hab => by injection hab) hwnd
      · intro p hp1 hp2
        rw [List.map_map] at hp1
        obtain ⟨r, hr, he⟩ := List.mem_map.mp hp1
        obtain ⟨q, hq, hqe⟩ := List.mem_map.mp hp2
        obtain ⟨k', tail, hq1, hmem, _⟩ := ha q hq
        apply hknotin
        have : k = k' := by
          have h1 : k :: r.1 = p := he
          have h2 : q.1 = p := hqe
          rw [hq1] at h2
          rw [← h1] at h2
          injection h2 with h2 _
          exact h2.symm
        rw [this]
        exact hmem
    · intro _
      rw [hsplit]
      intro happ
      rcases List.append_eq_nil.mp happ with ⟨h1, _⟩
      exact hwne (by
        have := congrArg List.length h1
        simp at this
        exact this)

/-! ## Rebuilding the tree from leaf paths -/

theorem foldInsert_append (l1 l2 : List (List Str × Value)) (t : UnflattenTree) :
    foldInsert (l1 ++ l2) t = foldInsert l2 (foldInsert l1 t) :=
  List.foldl_append _ _ _ _

theorem insert_empty_eq_branch_nil {p : List Str} (lv : Value) (hp : p ≠ []) :
    UnflattenTree.Empty.insert p lv = (UnflattenTree.Branch []).insert p lv := by
  cases p with
  | nil => exact absurd rfl hp
  | cons k keys => rfl

theorem foldInsert_group (k : Str) : ∀ (qs : List (List Str × Value))
    (q : List Str × Value) (m : List (Str × UnflattenTree)),
    foldInsert ((q :: qs).map (fun r => (k :: r.1, r.2))) (.Branch m)
      = .Branch (storeTree m k
          (foldInsert (q :: qs) ((lookupTree m k).getD .Empty))) := by
  intro qs
  induction qs with
  | nil => intro q m; rfl
  | cons q' qs' ih =>
    intro q m
    show foldInsert ((q' :: qs').map (fun r => (k :: r.1, r.2)))
      ((UnflattenTree.Branch m).insert (k :: q.1) q.2) = _
    rw [show (UnflattenTree.Branch m).insert (k :: q.1) q.2
        = .Branch (storeTree m k (((lookupTree m k).getD .Empty).insert q.1 q.2))
        from rfl]
    rw [ih q' (storeTree m k (((lookupTree m k).getD .Empty).insert q.1 q.2))]
    rw [lookupTree_storeTree_self, storeTree_storeTree]
    rfl

theorem foldInsert_leafPaths {c : Char} : ∀ v : Value, goodb c v = true →
    foldInsert (leafPaths v) .Empty = treeOfV v := by
  refine treeOfV.induct
    (fun v => goodb c v = true → foldInsert (leafPaths v) .Empty = treeOfV v)
    (fun es => goodEntries c es = true →
      ∀ m : List (Str × UnflattenTree), (∀ k ∈ es.map Prod.fst, lookupTree m k = none) →
      foldInsert (leafPathsObj es) (.Branch m) = .Branch (m ++ treeOfEntries es))
    ?_ ?_ ?_ ?_ ?_ ?_ ?_ ?_
  · intro entries ih h
    obtain ⟨hne, hge⟩ := goodb_obj h
    obtain ⟨hnn, _, _, hheads⟩ := leafPaths_facts (.obj entries) h
    show foldInsert (leafPathsObj entries) .Empty = .Branch (treeOfEntries entries)
    cases hlp : leafPathsObj entries with
    | nil => exact absurd (show leafPaths (.obj entries) = [] from hlp) hnn
    | cons q qs =>
      have hq1 : q.1 ≠ [] := by
        apply hheads rfl q
        show q ∈ leafPathsObj entries
        rw [hlp]
        exact List.mem_cons_self _ _
      have hbridge : foldInsert (q :: qs) .Empty = foldInsert (q :: qs) (.Branch []) := by
        show foldInsert qs (UnflattenTree.Empty.insert q.1 q.2)
          = foldInsert qs ((UnflattenTree.Branch []).insert q.1 q.2)
        rw [insert_empty_eq_branch_nil q.2 hq1]
      rw [hbridge, ← hlp]
      rw [ih hge [] (fun k _ => rfl)]
      rfl
  · intro _; rfl
  · intro b _; rfl
  · intro n _; rfl
  · intro s _; rfl
  · intro items h
    simp [goodb] at h
  · intro _ m _
    show UnflattenTree.Branch m = .Branch (m ++ [])
    rw [List.append_nil]
  · intro k w rest ih1 ih2 hge m hfresh
    obtain ⟨hk1, hk2, hck, hgw, hgrest⟩ := goodEntries_cons hge
    have hknotin : k ∉ rest.map Prod.fst := containsKey_eq_false.mp hck
    obtain ⟨hwne, _, _, _⟩ := leafPaths_facts w hgw
    have hsplit : leafPathsObj ((k, w) :: rest)
        = (leafPaths w).map (fun q => (k :: q.1, q.2)) ++ leafPathsObj rest := rfl
    rw [hsplit, foldInsert_append]
    cases hlp : leafPaths w with
    | nil => exact absurd hlp hwne
    | cons q qs =>
      rw [foldInsert_group]
      have hlk : lookupTree m k = none := hfresh k (by simp)
      rw [hlk]
      show foldInsert (leafPathsObj rest)
        (.Branch (storeTree m k (foldInsert (q :: qs) .Empty))) = _
      rw [← hlp, ih1 hgw]
      rw [storeTree_of_lookup_none (treeOfV w) hlk]
      rw [ih2 hgrest (m ++ [(k, treeOfV w)]) ?_]
      · rw [List.append_assoc]
        rfl
      · intro k' hk'
        have hne : k ≠ k' := fun he => hknotin (he ▸ hk')
        rw [lookupTree_append_of_none (hfresh k' (List.mem_cons_of_mem _ hk'))]
        exact lookupTree_singleton_of_ne hne

theorem serializeEntries_treeOfEntries : ∀ es : List (Str × Value),
    serializeEntries (treeOfEntries es) = es := by
  refine treeOfEntries.induct
    (fun v => serializeTree (treeOfV v) = v)
    (fun es => serializeEntries (treeOfEntries es) = es)
    ?_ ?_ ?_ ?_ ?_ ?_ ?_ ?_
  · intro entries ih
    show Value.obj (serializeEntries (treeOfEntries entries)) = _
    rw [ih]
  · rfl
  · intro b; rfl
  · intro n; rfl
  · intro s; rfl
  · intro items; rfl
  · rfl
  · intro k v rest ih1 ih2
    show (k, serializeTree (treeOfV v)) :: serializeEntries (treeOfEntries rest) = _
    rw [ih1, ih2]

/-! ## Remaining claim theorems -/

theorem unflatten_obj (sep : Str) (l : List (Str × Value)) :
    unflatten sep (.obj l)
      = .ok (l.foldl (fun t p => t.insert (splitOn sep p.1) p.2) .Empty) := rfl

theorem foldl_insert_joined {c : Char} : ∀ (ps : List (List Str × Value))
    (t : UnflattenTree),
    (∀ q ∈ ps, splitOn [c] (joinSegs [c] q.1) = q.1) →
    (ps.map (fun q => (joinSegs [c] q.1, q.2))).foldl
        (fun t p => t.insert (splitOn [c] p.1) p.2) t
      = foldInsert ps t := by
  intro ps
  induction ps with
  | nil => intro t _; rfl
  | cons q rest ih =>
    intro t hall
    show (rest.map _).foldl _ (t.insert (splitOn [c] (joinSegs [c] q.1)) q.2) = _
    rw [hall q (List.mem_cons_self _ _)]
    exact ih _ (fun r hr => hall r (List.mem_cons_of_mem _ hr))

/-- C1 (amended): the round trip `unflatten (flatten v) = v` holds for a
one-character separator `c` and any v that is an object in which,
recursively, there are no arrays, every object is nonempty, and every
object's keys are pairwise distinct, nonempty and free of `c` (so no
keys collide after path-joining).  The `Branch` `HashMap`'s enumeration
order is modelled as insertion order, for which the rebuilt object's
key order matches the input. -/
theorem claim_C1_amended_round_trip (c : Char) (entries : List (Str × Value))
    (hgood : goodb c (.obj entries) = true) :
    processUnflatten [c] (processFlatten [c] (.obj entries)) = .ok (.obj entries) := by
  obtain ⟨hne, hsegs, hnd, hheads⟩ := leafPaths_facts (.obj entries) hgood
  have hpaths : ∀ q ∈ leafPaths (Value.obj entries),
      q.1 ≠ [] ∧ ∀ s ∈ q.1, s ≠ [] ∧ c ∉ s :=
    fun q hq => ⟨hheads rfl q hq, hsegs q hq⟩
  have hflat : flatten [c] [] [] (.obj entries)
      = (leafPaths (Value.obj entries)).map (fun q => (joinSegs [c] q.1, q.2)) := by
    rw [flatten_fold_main]
    have hjp : joinedPairs [c] [] (.obj entries)
        = (leafPaths (Value.obj entries)).map (fun q => (joinSegs [c] q.1, q.2)) := by
      rw [joinedPairs]
      apply List.map_congr_left
      intro q hq
      obtain ⟨hq1, hq2⟩ := hpaths q hq
      cases hp : q.1 with
      | nil => exact absurd hp hq1
      | cons s tail =>
        have hs : s ≠ [] := (hq2 s (by rw [hp]; exact List.mem_cons_self _ _)).1
        rw [joinPath_empty_start hs]
    rw [hjp, foldIndexInsert_fresh _ [] ?_ (fun κ _ => rfl)]
    · rfl
    · rw [List.map_map]
      have hco : (Prod.fst ∘ fun q : List Str × Value => (joinSegs [c] q.1, q.2))
          = joinSegs [c] ∘ Prod.fst := rfl
      rw [hco, ← List.map_map]
      apply List.Nodup.map_on ?_ hnd
      intro p hp p' hp' he
      obtain ⟨q, hq, hqe⟩ := List.mem_map.mp hp
      obtain ⟨q', hq', hqe'⟩ := List.mem_map.mp hp'
      obtain ⟨h1, h2⟩ := hpaths q hq
      obtain ⟨h1', h2'⟩ := hpaths q' hq'
      subst hqe
      subst hqe'
      exact joinSegs_inj h1 h1' (fun s hs => (h2 s hs).2) (fun s hs => (h2' s hs).2) he
  show (unflatten [c] (.obj (flatten [c] [] [] (.obj entries)))).map serializeTree = _
  rw [hflat, unflatten_obj]
  rw [foldl_insert_joined (leafPaths (Value.obj entries)) .Empty
    (fun q hq => splitOn_joinSegs (hpaths q hq).1 (fun s hs => (hpaths q hq).2 s hs |>.2))]
  rw [show foldInsert (leafPaths (Value.obj entries)) .Empty = treeOfV (.obj entries)
    from foldInsert_leafPaths (.obj entries) hgood]
  show Except.ok (Value.obj (serializeEntries (treeOfEntries entries))) = _
  rw [serializeEntries_treeOfEntries]

/-- C1 witness: the round trip holds at {"a": {"b": 1}}. -/
theorem claim_C1_witness :
    goodb '.' (.obj [("a".data, .obj [("b".data, .num 1)])]) = true ∧
    processUnflatten dotSep
        (processFlatten dotSep (.obj [("a".data, .obj [("b".data, .num 1)])]))
      = .ok (.obj [("a".data, .obj [("b".data, .num 1)])]) :=
  ⟨by decide, claim_C1_amended_round_trip '.' _ (by decide)⟩

theorem leafPathsObj_scalars : ∀ entries : List (Str × Value),
    (∀ p ∈ entries, p.2.isObject = false ∧ p.2.isArray = false) →
    leafPathsObj entries = entries.map (fun p => ([p.1], p.2)) := by
  intro entries
  induction entries with
  | nil => intro _; rfl
  | cons p rest ih =>
    intro h
    obtain ⟨k, w⟩ := p
    have hw := h (k, w) (List.mem_cons_self _ _)
    have hlw : leafPaths w = [([], w)] := by
      cases w with
      | null => rfl
      | bool b => rfl
      | num n => rfl
      | str s => rfl
      | arr items => exact absurd hw.2 (by simp [Value.isArray])
      | obj es => exact absurd hw.1 (by simp [Value.isObject])
    show (leafPaths w).map (fun q => (k :: q.1, q.2)) ++ leafPathsObj rest = _
    rw [hlw, ih (fun p hp => h p (List.mem_cons_of_mem _ hp))]
    rfl

/-- C7: flattening an object whose values are all scalars returns an
object with identical key-value pairs in the same order (for any
separator; the keys of a JSON object are unique). -/
theorem claim_C7_flat_object_identity (sep : Str) (entries : List (Str × Value))
    (hnodup : (entries.map Prod.fst).Nodup)
    (hscalar : ∀ p ∈ entries, p.2.isObject = false ∧ p.2.isArray = false) :
    processFlatten sep (.obj entries) = .obj entries := by
  show Value.obj (flatten sep [] [] (.obj entries)) = _
  rw [flatten_fold_main]
  have hjp : joinedPairs sep [] (.obj entries) = entries := by
    rw [joinedPairs]
    show (leafPathsObj entries).map _ = _
    rw [leafPathsObj_scalars entries hscalar, List.map_map]
    have hco : ((fun q : List Str × Value => (joinPath sep [] q.1, q.2))
        ∘ fun p : Str × Value => ([p.1], p.2)) = id := by
      funext p
      show (joinKey sep [] p.1, p.2) = p
      rw [joinKey, if_pos rfl]
    rw [hco, List.map_id]
  rw [hjp, foldIndexInsert_fresh entries [] hnodup (fun κ _ => rfl)]
  rfl

/-- C7 witness: flattening the already-flat object {"a": 1, "b": 2}
returns it unchanged. -/
theorem claim_C7_witness :
    ([("a".data, Value.num 1), ("b".data, Value.num 2)].map Prod.fst).Nodup ∧
    (∀ p ∈ [("a".data, Value.num 1), ("b".data, Value.num 2)],
      p.2.isObject = false ∧ p.2.isArray = false) ∧
    processFlatten dotSep (.obj [("a".data, .num 1), ("b".data, .num 2)])
      = .obj [("a".data, .num 1), ("b".data, .num 2)] :=
  ⟨by decide, by decide, claim_C7_flat_object_identity dotSep _ (by decide) (by decide)⟩

/-- C5 (amended): on an input all of whose leaf paths start with a
nonempty segment (in particular whenever all object keys are nonempty),
every key emitted by flatten is the leaf path's segments joined with
the separator, the first segment carrying no leading separator; and
flatten({"a":{"b":1}}) with separator "." yields {"a.b": 1}. -/
theorem claim_C5_amended_keys_are_joined_paths :
    (∀ (sep : Str) (v : Value) (κ : Str),
      (∀ q ∈ leafPaths v, q.1.headI ≠ []) →
      κ ∈ (flatten sep [] [] v).map Prod.fst →
      ∃ q ∈ leafPaths v, κ = joinSegs sep q.1)
  ∧ processFlatten dotSep (.obj [("a".data, .obj [("b".data, .num 1)])])
      = .obj [("a.b".data, .num 1)] := by
  constructor
  · intro sep v κ hheads hmem
    rw [flatten_fold_main] at hmem
    rcases mem_keys_foldIndexInsert _ _ _ hmem with h | h
    · simp at h
    · rw [joinedPairs, List.map_map] at h
      obtain ⟨q, hq, he⟩ := List.mem_map.mp h
      refine ⟨q, hq, ?_⟩
      rw [← he]
      show joinPath sep [] q.1 = joinSegs sep q.1
      have hh := hheads q hq
      cases hp : q.1 with
      | nil => rw [hp] at hh; exact absurd rfl hh
      | cons s tail =>
        have hs : s ≠ [] := by rw [hp] at hh; exact hh
        rw [joinPath_empty_start hs]
  · rfl

/-- C5 witness: at the flat object {"x": 1}, the emitted key "x" is the
joined form of a leaf path of the input. -/
theorem claim_C5_witness :
    ∃ q ∈ leafPaths (.obj [("x".data, .num 1)]), "x".data = joinSegs dotSep q.1 :=
  claim_C5_amended_keys_are_joined_paths.1 dotSep (.obj [("x".data, .num 1)])
    "x".data (by decide) (by decide)

theorem leafPaths_scalar_values : ∀ (v : Value), ∀ q ∈ leafPaths v,
    q.2.isObject = false ∧ q.2.isArray = false := by
  refine leafPaths.induct
    (fun v => ∀ q ∈ leafPaths v, q.2.isObject = false ∧ q.2.isArray = false)
    (fun es => ∀ q ∈ leafPathsObj es, q.2.isObject = false ∧ q.2.isArray = false)
    (fun i items => ∀ q ∈ leafPathsArr i items,
      q.2.isObject = false ∧ q.2.isArray = false)
    ?_ ?_ ?_ ?_ ?_ ?_ ?_ ?_ ?_ ?_
  · intro items ih q hq
    exact ih q hq
  · intro entries ih q hq
    exact ih q hq
  · intro q hq
    rw [show leafPaths Value.null = [([], Value.null)] from rfl,
      List.mem_singleton] at hq
    subst hq
    exact ⟨rfl, rfl⟩
  · intro b q hq
    rw [show leafPaths (Value.bool b) = [([], Value.bool b)] from rfl,
      List.mem_singleton] at hq
    subst hq
    exact ⟨rfl, rfl⟩
  · intro n q hq
    rw [show leafPaths (Value.num n) = [([], Value.num n)] from rfl,
      List.mem_singleton] at hq
    subst hq
    exact ⟨rfl, rfl⟩
  · intro s q hq
    rw [show leafPaths (Value.str s) = [([], Value.str s)] from rfl,
      List.mem_singleton] at hq
    subst hq
    exact ⟨rfl, rfl⟩
  · intro i q hq
    simp [leafPathsArr] at hq
  · intro i v rest ih1 ih2 q hq
    rcases List.mem_append.mp hq with h | h
    · obtain ⟨r, hr, he⟩ := List.mem_map.mp h
      rw [← he]
      exact ih1 r hr
    · exact ih2 q h
  · intro q hq
    simp [leafPathsObj] at hq
  · intro k v rest ih1 ih2 q hq
    rcases List.mem_append.mp hq with h | h
    · obtain ⟨r, hr, he⟩ := List.mem_map.mp h
      rw [← he]
      exact ih1 r hr
    · exact ih2 q h

/-- C10: flatten emits nothing for an empty object or empty array; only
scalar leaves produce entries (every value in the output is a scalar);
in particular flatten({"a":{}}) yields the empty object. -/
theorem claim_C10_empty_containers_dropped :
    (∀ (sep currentKey : Str) (output : List (Str × Value)),
      flatten sep output currentKey (.obj []) = output)
  ∧ (∀ (sep currentKey : Str) (output : List (Str × Value)),
      flatten sep output currentKey (.arr []) = output)
  ∧ processFlatten dotSep (.obj [("a".data, .obj [])]) = .obj []
  ∧ (∀ (sep : Str) (v : Value), ∀ p ∈ flatten sep [] [] v,
      p.2.isObject = false ∧ p.2.isArray = false) := by
  refine ⟨fun sep key out => rfl, fun sep key out => rfl, rfl, ?_⟩
  intro sep v p hp
  rw [flatten_fold_main] at hp
  rcases mem_foldIndexInsert _ _ _ hp with h | h
  · simp at h
  · obtain ⟨q, hq, he⟩ := h
    rw [joinedPairs] at hq
    obtain ⟨r, hr, hre⟩ := List.mem_map.mp hq
    rw [he, ← hre]
    exact leafPaths_scalar_values v r hr

/-- C10 witness: in flatten({"a":{"b":1}}), the emitted entry under
"a.b" carries a scalar value. -/
theorem claim_C10_witness :
    (Value.num 1).isObject = false ∧ (Value.num 1).isArray = false :=
  claim_C10_empty_containers_dropped.2.2.2 dotSep
    (.obj [("a".data, .obj [("b".data, .num 1)])]) ("a.b".data, Value.num 1)
    (by rw [show flatten dotSep [] [] (.obj [("a".data, .obj [("b".data, .num 1)])])
        = [("a.b".data, Value.num 1)] from rfl]
        exact List.mem_singleton.mpr rfl)
